import Mathlib

/-!
# Verification of mlpack data-splitting, categorical-split and SSE-loss primitives

A shallow embedding of the excerpted mlpack sources:

* `core/data/split_data.hpp` — `SplitHelper` (labeled and unlabeled overloads)
  and `StratifiedSplit`;
* `methods/decision_tree/all_categorical_split_impl.hpp` —
  `AllCategoricalSplit::SplitIfBetter` (scalar `splitInfo` variant) together
  with `StoreSplitInfo`;
* `methods/xgboost/loss_functions/sse_loss.hpp` — the `SSELoss` primitives.

Modelling conventions:

* a dataset is the list of its columns (`List α`), labels are a parallel list;
* `double` arithmetic is embedded as exact rational arithmetic (`ℚ`);
  `static_cast<size_t>` of a nonnegative double and C `floor` are both `⌊·⌋₊`;
* the random permutation produced by `arma::shuffle(linspace(0, n-1, n))` is an
  explicit `order : List ℕ` parameter, constrained to be a permutation of
  `List.range n` in the theorems about shuffled modes;
* armadillo element and submatrix accesses that are out of bounds are modelled
  with `Except` (constructor `SplitError.outOfBounds`); the error kind
  `SplitError.dimensionMismatch` exists so that statements about a
  dimension-mismatch failure can be expressed;
* uninitialised memory produced by the armadillo size-only constructor
  `Mat(n_rows, n_cols)` is modelled by an explicit `mem : ℕ → ℚ` parameter
  supplying the junk contents.
-/

namespace Mlpack

/-- The C `DBL_MAX` constant (largest finite IEEE-754 double), used by
`SplitIfBetter` as the "no improvement" sentinel return value. -/
def DBL_MAX : ℚ := 2 ^ 1024 - 2 ^ 971

/-- `testSize = static_cast<size_t>(input.n_cols * testRatio)` from
`SplitHelper` (split_data.hpp lines 31 and 84): truncation of a nonnegative
product is the floor. -/
def testSizeOf (n : ℕ) (r : ℚ) : ℕ := ⌊(n : ℚ) * r⌋₊

/-- `trainSize = input.n_cols - testSize` (split_data.hpp lines 32 and 85). -/
def trainSizeOf (n : ℕ) (r : ℚ) : ℕ := n - testSizeOf n r

/-- The unlabeled `SplitHelper` overload (split_data.hpp lines 77–114).
`order` is the shuffled index vector; in the non-shuffled branch the source
copies the contiguous column ranges `cols(0, trainSize-1)` and
`cols(trainSize, n_cols-1)`, i.e. `take`/`drop`. -/
def splitHelper {α : Type} (input : List α) (order : List ℕ) (r : ℚ)
    (shuffleData : Bool) (d : α) : List α × List α :=
  let trainSize := trainSizeOf input.length r
  if shuffleData then
    ((order.take trainSize).map fun i => input.getD i d,
     (order.drop trainSize).map fun i => input.getD i d)
  else
    (input.take trainSize, input.drop trainSize)

/-- Error kinds for fallible armadillo accesses.  The source never constructs a
dimension-mismatch failure; the constructor is present so that claims about
such a failure are expressible. -/
inductive SplitError where
  | outOfBounds : SplitError
  | dimensionMismatch : SplitError
deriving DecidableEq

/-- A single bounds-checked column access `X.col(i)`. -/
def getCol {α : Type} (l : List α) (i : ℕ) : Except SplitError α :=
  match l.get? i with
  | some x => .ok x
  | none => .error .outOfBounds

/-- The column accesses `X.col(order(i))` performed by a loop of the shuffled
branch of `SplitHelper`, one per index of `idxs`. -/
def getCols {α : Type} (l : List α) (idxs : List ℕ) : Except SplitError (List α) :=
  match idxs with
  | [] => .ok []
  | i :: rest =>
    getCol l i >>= fun x =>
    getCols l rest >>= fun xs =>
    pure (x :: xs)

/-- The armadillo submatrix access `X.cols(first, last)`: valid when
`first ≤ last < n_cols`, otherwise an out-of-bounds failure. -/
def colsRange {α : Type} (l : List α) (first last : ℕ) : Except SplitError (List α) :=
  if first ≤ last ∧ last < l.length then .ok ((l.drop first).take (last + 1 - first))
  else .error .outOfBounds

/-- The labeled `SplitHelper` overload (split_data.hpp lines 21–75), with every
armadillo access modelled as fallible.  The source performs no validation of
`inputLabel`'s length against `input.n_cols`; the test-label slice of the
non-shuffled branch uses `inputLabel.n_cols` for its upper bound (line 72). -/
def splitHelperWithLabels {α β : Type} (input : List α) (inputLabel : List β)
    (order : List ℕ) (r : ℚ) (shuffleData : Bool) :
    Except SplitError (List α × List α × List β × List β) :=
  let n := input.length
  let trainSize := trainSizeOf n r
  if shuffleData then
    getCols input (order.take trainSize) >>= fun trainData =>
    getCols inputLabel (order.take trainSize) >>= fun trainLabel =>
    getCols input (order.drop trainSize) >>= fun testData =>
    getCols inputLabel (order.drop trainSize) >>= fun testLabel =>
    pure (trainData, testData, trainLabel, testLabel)
  else
    (if 0 < trainSize then colsRange input 0 (trainSize - 1) else pure []) >>=
      fun trainData =>
    (if 0 < trainSize then colsRange inputLabel 0 (trainSize - 1) else pure []) >>=
      fun trainLabel =>
    (if trainSize < n then colsRange input trainSize (n - 1) else pure []) >>=
      fun testData =>
    (if trainSize < n then colsRange inputLabel trainSize (inputLabel.length - 1)
      else pure []) >>= fun testLabel =>
    pure (trainData, testData, trainLabel, testLabel)

/-- `labelCounts[c]`, accumulated by the counting loop of `StratifiedSplit`
(split_data.hpp lines 179–180). -/
def labelCount (labels : List ℕ) (c : ℕ) : ℕ := labels.countP fun x => decide (x = c)

/-- The per-class test budget `floor(labelCounts[label] * testRatio)`
(split_data.hpp lines 184 and 201/221). -/
def classTestSize (labels : List ℕ) (r : ℚ) (c : ℕ) : ℕ :=
  ⌊(labelCount labels c : ℚ) * r⌋₊

/-- `inputLabel.max()` (split_data.hpp line 174); on an empty label vector the
source raises, so theorems about `StratifiedSplit` assume a nonempty input. -/
def maxLabel (labels : List ℕ) : ℕ := labels.foldr max 0

/-- Sum of `f` over `0, …, m-1`, as computed by the accumulation loop over
`labelCounts` (split_data.hpp lines 182–186). -/
def sumOver (m : ℕ) (f : ℕ → ℕ) : ℕ := ((List.range m).map f).sum

/-- The declared test size of `StratifiedSplit`
(`testSize += floor(labelCount * testRatio)`, line 184). -/
def stratTestSize (labels : List ℕ) (r : ℚ) : ℕ :=
  sumOver (maxLabel labels + 1) (classTestSize labels r)

/-- The declared train size of `StratifiedSplit`
(`trainSize += labelCount - floor(labelCount * testRatio)`, line 185). -/
def stratTrainSize (labels : List ℕ) (r : ℚ) : ℕ :=
  sumOver (maxLabel labels + 1) fun c => labelCount labels c - classTestSize labels r c

/-- Pointwise update of the running per-class test counter
(`testLabelCounts[label] += 1`, lines 203/223). -/
def bump (tc : ℕ → ℕ) (l : ℕ) : ℕ → ℕ := fun m => if m = l then tc l + 1 else tc m

/-- The greedy assignment loop of `StratifiedSplit` (lines 198–214 and
218–234): each sample of the processing sequence goes to the test side while
its class is below its budget `cap`, otherwise to the train side. -/
def stratGo {α : Type} (cap : ℕ → ℕ) : (ℕ → ℕ) → List (α × ℕ) →
    List (α × ℕ) × List (α × ℕ)
  | _, [] => ([], [])
  | tc, (x, l) :: rest =>
    if tc l < cap l then
      let p := stratGo cap (bump tc l) rest
      (p.1, (x, l) :: p.2)
    else
      let p := stratGo cap tc rest
      ((x, l) :: p.1, p.2)

/-- `StratifiedSplit` (split_data.hpp lines 152–236).  The outputs pair each
copied column with the label copied at the same output position; the processing
sequence is the shuffled order (`for uword i : order`) or linear order. -/
def stratifiedSplit {α : Type} (input : List α) (inputLabel : List ℕ)
    (order : List ℕ) (r : ℚ) (shuffleData : Bool) (d : α) :
    List (α × ℕ) × List (α × ℕ) :=
  let pairs := input.zip inputLabel
  let seq := if shuffleData then order.map (fun i => pairs.getD i (d, 0)) else pairs
  stratGo (classTestSize inputLabel r) (fun _ => 0) seq

/-- The fixed floating-point tolerance of `SplitIfBetter`
(`const double epsilon = 1e-7`, all_categorical_split_impl.hpp line 53). -/
def epsilon : ℚ := 1 / 10000000

/-- The per-category sample count `counts[i]` accumulated by the first loop of
`SplitIfBetter` (all_categorical_split_impl.hpp lines 62–71). -/
def catCount (data : List ℕ) (i : ℕ) : ℕ := data.countP fun x => decide (x = i)

/-- `childLabels[i]`: the labels of the samples whose (integer-cast) category
value is `i`, in original sample order (lines 92–105). -/
def childLabels (data labels : List ℕ) (i : ℕ) : List ℕ :=
  (data.zip labels).filterMap fun p => if p.1 = i then some p.2 else none

/-- `childWeights[i]`: the weights of the samples of category `i`, in original
sample order (lines 96–100). -/
def childWeights (data : List ℕ) (weights : List ℚ) (i : ℕ) : List ℚ :=
  (data.zip weights).filterMap fun p => if p.1 = i then some p.2 else none

/-- `sumWeight`, accumulated over `i < data.n_elem` (lines 66–70). -/
def sumWeight (data : List ℕ) (weights : List ℚ) : ℚ :=
  ((data.zip weights).map Prod.snd).sum

/-- `childPct` for category `i` (lines 111–113): weighted share of total
weight, or count share of the element count. -/
def childPct (useWeights : Bool) (data : List ℕ) (weights : List ℚ) (i : ℕ) : ℚ :=
  if useWeights then (childWeights data weights i).sum / sumWeight data weights
  else (catCount data i : ℚ) / (data.length : ℚ)

/-- `overallGain` (lines 107–118): the share-weighted sum of the fitness values
of the child buckets.  `fitness` is the pluggable
`FitnessFunction::Evaluate(childLabels, numClasses, childWeights)`; in
unweighted mode the source passes the default-constructed empty weight row. -/
def overallGain (fitness : List ℕ → ℕ → List ℚ → ℚ) (useWeights : Bool)
    (data : List ℕ) (numCategories : ℕ) (labels : List ℕ) (numClasses : ℕ)
    (weights : List ℚ) : ℚ :=
  ((List.range numCategories).map fun i =>
    childPct useWeights data weights i *
      fitness (childLabels data labels i) numClasses
        (if useWeights then childWeights data weights i else [])).sum

/-- `AllCategoricalSplit::SplitIfBetter` with the scalar (regression)
`splitInfo` (all_categorical_split_impl.hpp lines 37–129).  Returns the pair
(return value, splitInfo after the call); `StoreSplitInfo(double&, payload)`
(lines 22–25) is the assignment of `numCategories` to the scalar info.  The
leaf-size guard (`arma::min(counts) < minimumLeafSize`, line 75) fires when
some category bucket is below the minimum. -/
def splitIfBetter (fitness : List ℕ → ℕ → List ℚ → ℚ) (useWeights : Bool)
    (bestGain : ℚ) (data : List ℕ) (numCategories : ℕ) (labels : List ℕ)
    (numClasses : ℕ) (weights : List ℚ) (minimumLeafSize : ℕ)
    (minimumGainSplit : ℚ) (splitInfo : ℚ) : ℚ × ℚ :=
  if ∃ i ∈ List.range numCategories, catCount data i < minimumLeafSize then
    (DBL_MAX, splitInfo)
  else if bestGain + minimumGainSplit + epsilon
      < overallGain fitness useWeights data numCategories labels numClasses weights then
    (overallGain fitness useWeights data numCategories labels numClasses weights,
      (numCategories : ℚ))
  else (DBL_MAX, splitInfo)

namespace SSELoss

/-- `SSELoss::InitialPrediction` (sse_loss.hpp lines 35–39). -/
def InitialPrediction (values : List ℚ) : ℚ := values.sum / (values.length : ℚ)

/-- `SSELoss::Gradients` for scalars (sse_loss.hpp lines 53–57):
`- (observed - values)`. -/
def Gradients (observed values : ℚ) : ℚ := -(observed - values)

/-- `SSELoss::Gradients` instantiated at an armadillo vector type: the
expression `- (observed - values)` is elementwise. -/
def GradientsVec (observed values : List ℚ) : List ℚ :=
  List.zipWith (fun o v => -(o - v)) observed values

/-- `SSELoss::Hessians` for scalars (sse_loss.hpp lines 63–67): `(T) 1`. -/
def Hessians (observed values : ℚ) : ℚ := 1

/-- `SSELoss::Hessians` for vectors (sse_loss.hpp lines 73–80) at
`VecType = arma::Col`: `VecType h(values.n_elem, 1)` selects the
`(n_rows, n_cols)` size constructor, which allocates `values.n_elem`
elements WITHOUT initialising them; `mem` supplies the junk contents the
constructor leaves in place. -/
def HessiansCol (mem : ℕ → ℚ) (observed values : List ℚ) : List ℚ :=
  (List.range values.length).map mem

/-- `SSELoss::Hessians` for vectors at `VecType = arma::Row`:
`Row(values.n_elem, 1)` is the `(n_rows, n_cols)` size constructor, which
requires `n_rows == 1` for a row vector and otherwise raises the armadillo
layout error; when it succeeds the single element is uninitialised. -/
def HessiansRow (mem : ℕ → ℚ) (observed values : List ℚ) : Except String (List ℚ) :=
  if values.length = 1 then .ok [mem 0]
  else .error "Mat::init(): requested size is not compatible with row vector layout"

/-- `SSELoss::Residuals` for scalars (sse_loss.hpp lines 90–94):
`- Gradients(observed, f)`. -/
def Residuals (observed f : ℚ) : ℚ := - Gradients observed f

/-- `SSELoss::Residuals` at a vector type: elementwise negation of the
gradient. -/
def ResidualsVec (observed f : List ℚ) : List ℚ :=
  (GradientsVec observed f).map fun x => -x

end SSELoss

/-! ## Helper lemmas -/

theorem map_getD_range {α : Type} (l : List α) (d : α) :
    (List.range l.length).map (fun i => l.getD i d) = l := by
  induction l with
  | nil => rfl
  | cons x xs ih =>
    rw [List.length_cons, List.range_succ_eq_map, List.map_cons, List.map_map]
    have hcong : (List.range xs.length).map ((fun i => (x :: xs).getD i d) ∘ Nat.succ)
        = (List.range xs.length).map (fun i => xs.getD i d) := by
      apply List.map_congr_left
      intro i _
      rfl
    rw [hcong, ih]
    rfl

theorem perm_map_getD {α : Type} {order : List ℕ} {l : List α} (d : α)
    (h : order.Perm (List.range l.length)) :
    (order.map fun i => l.getD i d).Perm l := by
  have h2 := h.map (fun i => l.getD i d)
  rwa [map_getD_range] at h2

theorem splitHelper_shuffle_append {α : Type} (input : List α) (order : List ℕ)
    (r : ℚ) (d : α) :
    (splitHelper input order r true d).1 ++ (splitHelper input order r true d).2
      = order.map fun i => input.getD i d := by
  simp only [splitHelper, if_true, List.map_take, List.map_drop,
    List.take_append_drop]

theorem stratGo_append_perm {α : Type} (cap : ℕ → ℕ) (tc : ℕ → ℕ)
    (l : List (α × ℕ)) :
    ((stratGo cap tc l).1 ++ (stratGo cap tc l).2).Perm l := by
  induction l generalizing tc with
  | nil => simp [stratGo]
  | cons hd tl ih =>
    obtain ⟨x, lab⟩ := hd
    by_cases h : tc lab < cap lab
    · simp only [stratGo, if_pos h]
      exact List.perm_middle.trans ((ih (bump tc lab)).cons (x, lab))
    · simp only [stratGo, if_neg h, List.cons_append]
      exact (ih tc).cons (x, lab)

theorem stratGo_test_countP {α : Type} (cap : ℕ → ℕ) (c : ℕ) (tc : ℕ → ℕ)
    (l : List (α × ℕ)) :
    ((stratGo cap tc l).2.countP fun p => decide (p.2 = c))
      = min (l.countP fun p => decide (p.2 = c)) (cap c - tc c) := by
  induction l generalizing tc with
  | nil => simp [stratGo]
  | cons hd tl ih =>
    obtain ⟨x, lab⟩ := hd
    by_cases h : tc lab < cap lab
    · simp only [stratGo, if_pos h]
      rw [List.countP_cons, List.countP_cons, ih (bump tc lab)]
      simp only [decide_eq_true_eq]
      by_cases hc : lab = c
      · rw [if_pos hc]
        have hb : bump tc lab c = tc c + 1 := by
          unfold bump
          rw [if_pos hc.symm, hc]
        rw [hb]
        have h' : tc c < cap c := by rw [← hc]; exact h
        omega
      · rw [if_neg hc]
        have hb : bump tc lab c = tc c := by
          unfold bump
          rw [if_neg (fun h' => hc h'.symm)]
        rw [hb]
        omega
    · simp only [stratGo, if_neg h]
      rw [List.countP_cons, ih tc]
      simp only [decide_eq_true_eq]
      by_cases hc : lab = c
      · rw [if_pos hc]
        have h' : ¬ tc c < cap c := by rw [← hc]; exact h
        omega
      · rw [if_neg hc]
        omega

theorem countP_zip_eq_labelCount {α : Type} {input : List α} {labels : List ℕ}
    (hlen : labels.length = input.length) (c : ℕ) :
    ((input.zip labels).countP fun p => decide (p.2 = c)) = labelCount labels c := by
  have hz : (input.zip labels).map Prod.snd = labels :=
    List.map_snd_zip _ _ (le_of_eq hlen)
  rw [labelCount]
  conv_rhs => rw [← hz]
  rw [List.countP_map]
  rfl

theorem sumOver_zero (f : ℕ → ℕ) : sumOver 0 f = 0 := rfl

theorem sumOver_succ (m : ℕ) (f : ℕ → ℕ) : sumOver (m + 1) f = sumOver m f + f m := by
  simp [sumOver, List.range_succ]

theorem sumOver_add (m : ℕ) (f g : ℕ → ℕ) :
    sumOver m (fun c => f c + g c) = sumOver m f + sumOver m g := by
  induction m with
  | zero => rfl
  | succ n ih => rw [sumOver_succ, sumOver_succ, sumOver_succ, ih]; omega

theorem sumOver_indicator_zero (m k : ℕ) (h : m ≤ k) :
    sumOver m (fun c => if k = c then 1 else 0) = 0 := by
  induction m with
  | zero => rfl
  | succ n ih =>
    rw [sumOver_succ, if_neg (by omega), ih (by omega)]

theorem sumOver_indicator (m k : ℕ) (h : k < m) :
    sumOver m (fun c => if k = c then 1 else 0) = 1 := by
  induction m with
  | zero => omega
  | succ n ih =>
    rw [sumOver_succ]
    by_cases hk : k = n
    · rw [if_pos hk, sumOver_indicator_zero n k (by omega)]
    · rw [if_neg hk, ih (by omega)]

theorem length_eq_sumOver_countP {α : Type} (l : List (α × ℕ)) (m : ℕ)
    (h : ∀ p ∈ l, p.2 < m) :
    l.length = sumOver m fun c => l.countP fun p => decide (p.2 = c) := by
  induction l with
  | nil => simp [sumOver]
  | cons hd tl ih =>
    have hhd : hd.2 < m := h hd (by simp)
    have htl : ∀ p ∈ tl, p.2 < m := fun p hp => h p (by simp [hp])
    rw [List.length_cons, ih htl]
    have hsplit : (fun c => (hd :: tl).countP fun p => decide (p.2 = c))
        = fun c => (tl.countP fun p => decide (p.2 = c)) + if hd.2 = c then 1 else 0 := by
      funext c
      rw [List.countP_cons]
      simp
    rw [hsplit, sumOver_add, sumOver_indicator m hd.2 hhd]

theorem lt_maxLabel_succ {labels : List ℕ} {x : ℕ} (h : x ∈ labels) :
    x < maxLabel labels + 1 := by
  induction labels with
  | nil => cases h
  | cons a tl ih =>
    rcases List.mem_cons.mp h with h' | h'
    · subst h'
      simp only [maxLabel, List.foldr_cons]
      omega
    · have h2 := ih h'
      simp only [maxLabel, List.foldr_cons] at h2 ⊢
      omega

theorem classTestSize_le (labels : List ℕ) (r : ℚ) (c : ℕ) (hr1 : r ≤ 1) :
    classTestSize labels r c ≤ labelCount labels c := by
  unfold classTestSize
  calc ⌊(labelCount labels c : ℚ) * r⌋₊
      ≤ ⌊(labelCount labels c : ℚ)⌋₊ :=
        Nat.floor_mono (mul_le_of_le_one_right (by positivity) hr1)
    _ = labelCount labels c := Nat.floor_natCast _

theorem testSizeOf_le (n : ℕ) (r : ℚ) (hr1 : r ≤ 1) : testSizeOf n r ≤ n := by
  unfold testSizeOf
  calc ⌊(n : ℚ) * r⌋₊ ≤ ⌊(n : ℚ)⌋₊ :=
        Nat.floor_mono (mul_le_of_le_one_right (by positivity) hr1)
    _ = n := Nat.floor_natCast _

theorem length_eq_sumOver_count (l : List ℕ) (m : ℕ) (h : ∀ x ∈ l, x < m) :
    l.length = sumOver m fun c => l.countP fun x => decide (x = c) := by
  induction l with
  | nil => simp [sumOver]
  | cons hd tl ih =>
    have hhd : hd < m := h hd (by simp)
    have htl : ∀ x ∈ tl, x < m := fun x hx => h x (by simp [hx])
    rw [List.length_cons, ih htl]
    have hsplit : (fun c => (hd :: tl).countP fun x => decide (x = c))
        = fun c => (tl.countP fun x => decide (x = c)) + if hd = c then 1 else 0 := by
      funext c
      rw [List.countP_cons]
      simp
    rw [hsplit, sumOver_add, sumOver_indicator m hd hhd]

theorem splitHelper_lengths {α : Type} (input : List α) (order : List ℕ) (r : ℚ)
    (sh : Bool) (d : α) (hr1 : r ≤ 1) (hord : order.length = input.length) :
    (splitHelper input order r sh d).1.length = trainSizeOf input.length r ∧
    (splitHelper input order r sh d).2.length = testSizeOf input.length r := by
  have h1 : testSizeOf input.length r ≤ input.length := testSizeOf_le _ _ hr1
  have h2 : trainSizeOf input.length r ≤ input.length := Nat.sub_le _ _
  cases sh
  · simp only [splitHelper, Bool.false_eq_true, if_false]
    constructor
    · rw [List.length_take]
      omega
    · rw [List.length_drop]
      unfold trainSizeOf
      omega
  · simp only [splitHelper, if_true, List.length_map]
    constructor
    · rw [List.length_take, hord]
      omega
    · rw [List.length_drop, hord]
      unfold trainSizeOf
      omega

theorem stratGo_test_length_core {α : Type} (input : List α) (labels : List ℕ)
    (r : ℚ) (seq : List (α × ℕ)) (hr1 : r ≤ 1)
    (hlen : labels.length = input.length)
    (hperm : seq.Perm (input.zip labels)) :
    (stratGo (classTestSize labels r) (fun _ => 0) seq).2.length
      = stratTestSize labels r := by
  have hmem : ∀ p ∈ (stratGo (classTestSize labels r) (fun _ => 0) seq).2,
      p.2 < maxLabel labels + 1 := by
    intro p hp
    have hp3 : p ∈ input.zip labels := ((stratGo_append_perm _ _ _).trans hperm).mem_iff.mp
      (List.mem_append_right _ hp)
    obtain ⟨x, lab⟩ := p
    exact lt_maxLabel_succ (List.of_mem_zip hp3).2
  rw [length_eq_sumOver_countP _ _ hmem]
  unfold stratTestSize
  congr 1
  funext c
  rw [stratGo_test_countP, hperm.countP_eq, countP_zip_eq_labelCount hlen]
  simp only [Nat.sub_zero]
  exact min_eq_right (classTestSize_le labels r c hr1)

theorem stratifiedSplit_eq_stratGo {α : Type} (input : List α) (labels : List ℕ)
    (order : List ℕ) (r : ℚ) (sh : Bool) (d : α) :
    stratifiedSplit input labels order r sh d
      = stratGo (classTestSize labels r) (fun _ => 0)
        (if sh then order.map (fun i => (input.zip labels).getD i (d, 0))
          else input.zip labels) := rfl

theorem stratSeq_perm {α : Type} (input : List α) (labels : List ℕ)
    (order : List ℕ) (d : α) (sh : Bool) (hlen : labels.length = input.length)
    (hord : order.Perm (List.range input.length)) :
    (if sh then order.map (fun i => (input.zip labels).getD i (d, 0))
        else input.zip labels).Perm (input.zip labels) := by
  cases sh
  · exact List.Perm.refl _
  · have hl : (input.zip labels).length = input.length := by
      rw [List.length_zip, hlen, min_self]
    exact perm_map_getD (d, 0) (by rw [hl]; exact hord)

theorem except_ok_bind {α β : Type} (a : α) (f : α → Except SplitError β) :
    (Except.ok a >>= f) = f a := rfl

theorem except_pure_bind {α β : Type} (a : α) (f : α → Except SplitError β) :
    ((pure a : Except SplitError α) >>= f) = f a := rfl

theorem except_error_bind {α β : Type} (e : SplitError)
    (f : α → Except SplitError β) :
    ((Except.error e : Except SplitError α) >>= f) = Except.error e := rfl

theorem except_bind_ne {α β : Type} {e : SplitError} (ma : Except SplitError α)
    (f : α → Except SplitError β) (h1 : ma ≠ .error e) (h2 : ∀ a, f a ≠ .error e) :
    (ma >>= f) ≠ .error e := by
  cases ma with
  | error e' =>
    rw [except_error_bind]
    intro hcon
    have he : e' = e := by injection hcon
    exact h1 (by rw [he])
  | ok a =>
    rw [except_ok_bind]
    exact h2 a

theorem getCol_ne_dm {α : Type} (l : List α) (i : ℕ) :
    getCol l i ≠ Except.error SplitError.dimensionMismatch := by
  unfold getCol
  cases l.get? i <;> simp

theorem getCols_ne_dm {α : Type} (l : List α) (idxs : List ℕ) :
    getCols l idxs ≠ Except.error SplitError.dimensionMismatch := by
  induction idxs with
  | nil => simp [getCols]
  | cons i rest ih =>
    exact except_bind_ne _ _ (getCol_ne_dm l i)
      fun x => except_bind_ne _ _ ih fun xs => by simp [pure, Except.pure]

theorem colsRange_ne_dm {α : Type} (l : List α) (a b : ℕ) :
    colsRange l a b ≠ Except.error SplitError.dimensionMismatch := by
  unfold colsRange
  split <;> simp

theorem colsRange_or_nil_ne_dm {α : Type} (c : Prop) [Decidable c] (l : List α)
    (a b : ℕ) :
    (if c then colsRange l a b else pure [])
      ≠ Except.error SplitError.dimensionMismatch := by
  split
  · exact colsRange_ne_dm l a b
  · simp [pure, Except.pure]

theorem splitHelperWithLabels_ne_dm {α β : Type} (input : List α) (labels : List β)
    (order : List ℕ) (r : ℚ) (sh : Bool) :
    splitHelperWithLabels input labels order r sh
      ≠ Except.error SplitError.dimensionMismatch := by
  unfold splitHelperWithLabels
  cases sh
  · exact except_bind_ne _ _ (colsRange_or_nil_ne_dm _ _ _ _)
      fun _ => except_bind_ne _ _ (colsRange_or_nil_ne_dm _ _ _ _)
      fun _ => except_bind_ne _ _ (colsRange_or_nil_ne_dm _ _ _ _)
      fun _ => except_bind_ne _ _ (colsRange_or_nil_ne_dm _ _ _ _)
      fun _ => by simp [pure, Except.pure]
  · exact except_bind_ne _ _ (getCols_ne_dm _ _)
      fun _ => except_bind_ne _ _ (getCols_ne_dm _ _)
      fun _ => except_bind_ne _ _ (getCols_ne_dm _ _)
      fun _ => except_bind_ne _ _ (getCols_ne_dm _ _)
      fun _ => by simp [pure, Except.pure]

theorem splitHelperWithLabels_noShuffle_ok {α β : Type} (input : List α)
    (labels : List β) (order : List ℕ) (r : ℚ)
    (hlab : input.length ≤ labels.length) :
    splitHelperWithLabels input labels order r false
      = Except.ok (input.take (trainSizeOf input.length r),
          input.drop (trainSizeOf input.length r),
          labels.take (trainSizeOf input.length r),
          if trainSizeOf input.length r < input.length
            then labels.drop (trainSizeOf input.length r) else []) := by
  have hkn : trainSizeOf input.length r ≤ input.length := Nat.sub_le _ _
  unfold splitHelperWithLabels
  simp only [Bool.false_eq_true, if_false]
  by_cases h0 : 0 < trainSizeOf input.length r
  · have e1 : colsRange input 0 (trainSizeOf input.length r - 1)
        = Except.ok (input.take (trainSizeOf input.length r)) := by
      unfold colsRange
      rw [if_pos ⟨Nat.zero_le _, by omega⟩, List.drop_zero]
      congr 1
      congr 1
      omega
    have e2 : colsRange labels 0 (trainSizeOf input.length r - 1)
        = Except.ok (labels.take (trainSizeOf input.length r)) := by
      unfold colsRange
      rw [if_pos ⟨Nat.zero_le _, by omega⟩, List.drop_zero]
      congr 1
      congr 1
      omega
    by_cases h2 : trainSizeOf input.length r < input.length
    · have e3 : colsRange input (trainSizeOf input.length r) (input.length - 1)
          = Except.ok (input.drop (trainSizeOf input.length r)) := by
        unfold colsRange
        rw [if_pos ⟨by omega, by omega⟩]
        congr 1
        have hlen3 : input.length - 1 + 1 - trainSizeOf input.length r
            = (input.drop (trainSizeOf input.length r)).length := by
          rw [List.length_drop]
          omega
        rw [hlen3, List.take_length]
      have e4 : colsRange labels (trainSizeOf input.length r) (labels.length - 1)
          = Except.ok (labels.drop (trainSizeOf input.length r)) := by
        unfold colsRange
        rw [if_pos ⟨by omega, by omega⟩]
        congr 1
        have hlen4 : labels.length - 1 + 1 - trainSizeOf input.length r
            = (labels.drop (trainSizeOf input.length r)).length := by
          rw [List.length_drop]
          omega
        rw [hlen4, List.take_length]
      simp only [if_pos h0, if_pos h2, e1, e2, e3, e4, except_ok_bind]
      rfl
    · have hkeq : trainSizeOf input.length r = input.length := by omega
      simp only [if_pos h0, if_neg h2, e1, e2, except_ok_bind, except_pure_bind]
      rw [hkeq, List.drop_length]
      rfl
  · have hkeq : trainSizeOf input.length r = 0 := by omega
    by_cases h2 : trainSizeOf input.length r < input.length
    · have e3 : colsRange input (trainSizeOf input.length r) (input.length - 1)
          = Except.ok (input.drop (trainSizeOf input.length r)) := by
        unfold colsRange
        rw [if_pos ⟨by omega, by omega⟩]
        congr 1
        have hlen3 : input.length - 1 + 1 - trainSizeOf input.length r
            = (input.drop (trainSizeOf input.length r)).length := by
          rw [List.length_drop]
          omega
        rw [hlen3, List.take_length]
      have e4 : colsRange labels (trainSizeOf input.length r) (labels.length - 1)
          = Except.ok (labels.drop (trainSizeOf input.length r)) := by
        unfold colsRange
        rw [if_pos ⟨by omega, by omega⟩]
        congr 1
        have hlen4 : labels.length - 1 + 1 - trainSizeOf input.length r
            = (labels.drop (trainSizeOf input.length r)).length := by
          rw [List.length_drop]
          omega
        rw [hlen4, List.take_length]
      simp only [if_neg h0, if_pos h2, e3, e4, except_ok_bind, except_pure_bind]
      rw [hkeq]
      rfl
    · have hneq : input.length = 0 := by omega
      have hinp : input = [] := List.length_eq_zero.mp hneq
      simp only [if_neg h0, if_neg h2, except_pure_bind]
      rw [hkeq, hinp]
      rfl

/-! ## Claim theorems -/

/-- C3: for every input dataset of n samples, non-stratified `Split` (whether
`shuffleData` is true or false) produces a set partition of the input columns:
in shuffled mode (with the shuffled order a permutation of `[0,n)`) the two
outputs together are a permutation of the input — every column appears exactly
once, no duplicates, no omissions — and in non-shuffled mode their
concatenation is the input itself. -/
theorem C3_split_index_partition {α : Type} (input : List α) (order : List ℕ)
    (r : ℚ) (d : α) (hord : order.Perm (List.range input.length)) :
    ((splitHelper input order r true d).1 ++ (splitHelper input order r true d).2).Perm
      input ∧
    (splitHelper input order r false d).1 ++ (splitHelper input order r false d).2
      = input := by
  constructor
  · rw [splitHelper_shuffle_append]
    exact perm_map_getD d hord
  · simp only [splitHelper, Bool.false_eq_true, if_false, List.take_append_drop]

/-- C3 witness: a concrete shuffled and non-shuffled partition of a 3-column
dataset. -/
theorem C3_split_index_partition_witness :
    ((splitHelper [10, 20, 30] [2, 0, 1] (1/3) true 0).1
        ++ (splitHelper [10, 20, 30] [2, 0, 1] (1/3) true 0).2).Perm [10, 20, 30] ∧
    (splitHelper [10, 20, 30] [2, 0, 1] (1/3) false 0).1
        ++ (splitHelper [10, 20, 30] [2, 0, 1] (1/3) false 0).2 = [10, 20, 30] :=
  C3_split_index_partition [10, 20, 30] [2, 0, 1] (1/3) 0 (by decide)

/-- C4: non-shuffled non-stratified `Split` is order-preserving — train is the
first `trainSize` columns and test the remaining columns in original order, so
train ++ test reproduces the input; in particular a 10-sample dataset with
testRatio 3/10 gives trainSize 7, testSize 3 and the test set is the last 3
columns in order. -/
theorem C4_nonshuffled_order_preserving :
    (∀ (α : Type) (input : List α) (order : List ℕ) (r : ℚ) (d : α),
      (splitHelper input order r false d).1
          = input.take (trainSizeOf input.length r) ∧
      (splitHelper input order r false d).2
          = input.drop (trainSizeOf input.length r) ∧
      (splitHelper input order r false d).1 ++ (splitHelper input order r false d).2
          = input) ∧
    trainSizeOf 10 (3/10) = 7 ∧ testSizeOf 10 (3/10) = 3 ∧
    (splitHelper [0, 1, 2, 3, 4, 5, 6, 7, 8, 9] [] (3/10) false 0).1
        = [0, 1, 2, 3, 4, 5, 6] ∧
    (splitHelper [0, 1, 2, 3, 4, 5, 6, 7, 8, 9] [] (3/10) false 0).2 = [7, 8, 9] := by
  have hts : testSizeOf 10 (3/10) = 3 := by
    unfold testSizeOf
    norm_num
  have htr : trainSizeOf 10 (3/10) = 7 := by
    unfold trainSizeOf
    rw [hts]
  refine ⟨fun α input order r d => ⟨rfl, rfl, ?_⟩, htr, hts, ?_, ?_⟩
  · simp only [splitHelper, Bool.false_eq_true, if_false, List.take_append_drop]
  · show List.take (trainSizeOf 10 (3/10)) _ = _
    rw [htr]
    rfl
  · show List.drop (trainSizeOf 10 (3/10)) _ = _
    rw [htr]
    rfl

/-- C2: for every discrete label vector and every class c, `StratifiedSplit`
assigns exactly `floor(classCount(c) * testRatio)` samples of class c to the
test set, and every sample goes to exactly one of train/test (the two outputs
together are a permutation of the column/label pairs), in both shuffled and
non-shuffled modes. -/
theorem C2_stratified_per_class_counts {α : Type} (input : List α)
    (labels order : List ℕ) (r : ℚ) (sh : Bool) (d : α)
    (hr1 : r ≤ 1) (hlen : labels.length = input.length) (hne : 0 < input.length)
    (hord : order.Perm (List.range input.length)) :
    (∀ c, ((stratifiedSplit input labels order r sh d).2.countP
        fun p => decide (p.2 = c)) = ⌊(labelCount labels c : ℚ) * r⌋₊) ∧
    ((stratifiedSplit input labels order r sh d).1
        ++ (stratifiedSplit input labels order r sh d).2).Perm (input.zip labels) := by
  have hperm := stratSeq_perm input labels order d sh hlen hord
  constructor
  · intro c
    rw [stratifiedSplit_eq_stratGo, stratGo_test_countP, hperm.countP_eq,
      countP_zip_eq_labelCount hlen]
    simp only [Nat.sub_zero]
    exact min_eq_right (classTestSize_le labels r c hr1)
  · rw [stratifiedSplit_eq_stratGo]
    exact (stratGo_append_perm _ _ _).trans hperm

/-- C2 witness: a stratified shuffled split of a concrete 6-sample dataset with
two classes, testRatio 1/2. -/
theorem C2_stratified_per_class_counts_witness :
    ((stratifiedSplit [100, 200, 300, 400, 500, 600] [0, 0, 0, 0, 1, 1]
          [5, 0, 3, 1, 4, 2] (1/2) true 0).2.countP
        fun p => decide (p.2 = 0)) = ⌊(labelCount [0, 0, 0, 0, 1, 1] 0 : ℚ) * (1/2)⌋₊ ∧
    ((stratifiedSplit [100, 200, 300, 400, 500, 600] [0, 0, 0, 0, 1, 1]
          [5, 0, 3, 1, 4, 2] (1/2) true 0).1
        ++ (stratifiedSplit [100, 200, 300, 400, 500, 600] [0, 0, 0, 0, 1, 1]
          [5, 0, 3, 1, 4, 2] (1/2) true 0).2).Perm
      ([100, 200, 300, 400, 500, 600].zip [0, 0, 0, 0, 1, 1]) := by
  have h := C2_stratified_per_class_counts [100, 200, 300, 400, 500, 600]
    [0, 0, 0, 0, 1, 1] [5, 0, 3, 1, 4, 2] (1/2) true 0
    (by norm_num) (by decide) (by decide) (by decide)
  exact ⟨h.1 0, h.2⟩

/-- C1 (amended): for every dataset and `testRatio ∈ [0,1]`, non-stratified
`Split` in either shuffle mode has output sizes summing to n with the test
size exactly `floor(n * testRatio)`; `StratifiedSplit` also has output sizes
summing to n, but its test size is the per-class sum
`Σ_c floor(classCount(c) * testRatio)` (its declared train/test sizes likewise
sum to n). -/
theorem C1_partition_sizes_amended {α : Type} (input : List α)
    (labels order : List ℕ) (r : ℚ) (d : α)
    (hr1 : r ≤ 1) (hlen : labels.length = input.length) (hne : 0 < input.length)
    (hord : order.Perm (List.range input.length)) :
    (∀ sh, (splitHelper input order r sh d).1.length
          + (splitHelper input order r sh d).2.length = input.length ∧
        (splitHelper input order r sh d).2.length = testSizeOf input.length r) ∧
    (∀ sh, (stratifiedSplit input labels order r sh d).1.length
          + (stratifiedSplit input labels order r sh d).2.length = input.length ∧
        (stratifiedSplit input labels order r sh d).2.length = stratTestSize labels r) ∧
    stratTrainSize labels r + stratTestSize labels r = labels.length := by
  have hordlen : order.length = input.length := by
    rw [hord.length_eq, List.length_range]
  refine ⟨?_, ?_, ?_⟩
  · intro sh
    obtain ⟨h1, h2⟩ := splitHelper_lengths input order r sh d hr1 hordlen
    refine ⟨?_, h2⟩
    rw [h1, h2]
    unfold trainSizeOf
    have := testSizeOf_le input.length r hr1
    omega
  · intro sh
    have hperm := stratSeq_perm input labels order d sh hlen hord
    have hlenzip : (input.zip labels).length = input.length := by
      rw [List.length_zip, hlen, min_self]
    constructor
    · have htot := ((stratGo_append_perm (classTestSize labels r) (fun _ => 0)
        (if sh then order.map (fun i => (input.zip labels).getD i (d, 0))
          else input.zip labels)).trans hperm).length_eq
      rw [List.length_append, hlenzip] at htot
      rw [stratifiedSplit_eq_stratGo]
      exact htot
    · rw [stratifiedSplit_eq_stratGo]
      exact stratGo_test_length_core input labels r _ hr1 hlen hperm
  · unfold stratTrainSize stratTestSize
    rw [← sumOver_add]
    have hcongr : (fun c => (labelCount labels c - classTestSize labels r c)
          + classTestSize labels r c) = fun c => labelCount labels c := by
      funext c
      have := classTestSize_le labels r c hr1
      omega
    rw [hcongr]
    exact (length_eq_sumOver_count labels _ fun x hx => lt_maxLabel_succ hx).symm

/-- C1 witness: concrete instantiation on a 6-sample two-class dataset with
testRatio 1/2. -/
theorem C1_partition_sizes_amended_witness :
    ((splitHelper [100, 200, 300, 400, 500, 600] [5, 0, 3, 1, 4, 2] (1/2) true 0).1.length
        + (splitHelper [100, 200, 300, 400, 500, 600] [5, 0, 3, 1, 4, 2] (1/2) true 0).2.length
        = 6 ∧
      (splitHelper [100, 200, 300, 400, 500, 600] [5, 0, 3, 1, 4, 2] (1/2) true 0).2.length
        = testSizeOf 6 (1/2)) ∧
    stratTrainSize [0, 0, 0, 0, 1, 1] (1/2) + stratTestSize [0, 0, 0, 0, 1, 1] (1/2) = 6 := by
  have h := C1_partition_sizes_amended [100, 200, 300, 400, 500, 600] [0, 0, 0, 0, 1, 1]
    [5, 0, 3, 1, 4, 2] (1/2) 0 (by norm_num) (by decide) (by decide) (by decide)
  exact ⟨h.1 true, h.2.2⟩

/-- C1 counterexample: for the 10-sample dataset with five samples of class 0
and five of class 1 and testRatio 3/10, `StratifiedSplit` produces a test set
of 2 samples, while `floor(n * testRatio) = 3`; so the claim that every
partitioning operation (including `StratifiedSplit`) has
`testSize = floor(n * testRatio)` is false. -/
theorem C1_counterexample_stratified :
    (stratifiedSplit [0, 1, 2, 3, 4, 5, 6, 7, 8, 9] [0, 0, 0, 0, 0, 1, 1, 1, 1, 1]
        ([] : List ℕ) (3/10) false 0).2.length = 2 ∧
    testSizeOf 10 (3/10) = 3 := by
  constructor
  · rw [stratifiedSplit_eq_stratGo]
    have hcore := stratGo_test_length_core [0, 1, 2, 3, 4, 5, 6, 7, 8, 9]
      [0, 0, 0, 0, 0, 1, 1, 1, 1, 1] (3/10)
      ([0, 1, 2, 3, 4, 5, 6, 7, 8, 9].zip [0, 0, 0, 0, 0, 1, 1, 1, 1, 1])
      (by norm_num) (by decide) (List.Perm.refl _)
    have hts : stratTestSize [0, 0, 0, 0, 0, 1, 1, 1, 1, 1] (3/10) = 2 := by
      have hm : maxLabel [0, 0, 0, 0, 0, 1, 1, 1, 1, 1] = 1 := by decide
      unfold stratTestSize
      rw [hm, sumOver_succ, sumOver_succ, sumOver_zero]
      have hc0 : labelCount [0, 0, 0, 0, 0, 1, 1, 1, 1, 1] 0 = 5 := by decide
      have hc1 : labelCount [0, 0, 0, 0, 0, 1, 1, 1, 1, 1] 1 = 5 := by decide
      unfold classTestSize
      rw [hc0, hc1]
      have hfl : ⌊((5 : ℕ) : ℚ) * (3/10)⌋₊ = 1 := by
        rw [Nat.floor_eq_iff (by norm_num)]
        norm_num
      rw [hfl]
    exact hcore.trans hts
  · unfold testSizeOf
    norm_num

/-- C9: the SSE gradient is `-(observed - predicted)` and the residual is the
negated gradient, i.e. exactly `observed - predicted`, for scalars and
elementwise for vectors. -/
theorem C9_gradients_residuals :
    (∀ o v : ℚ, SSELoss.Gradients o v = -(o - v) ∧
      SSELoss.Residuals o v = -(SSELoss.Gradients o v) ∧
      SSELoss.Residuals o v = o - v) ∧
    (∀ os vs : List ℚ,
      SSELoss.GradientsVec os vs = List.zipWith (fun o v => -(o - v)) os vs ∧
      SSELoss.ResidualsVec os vs = (SSELoss.GradientsVec os vs).map (fun x => -x) ∧
      SSELoss.ResidualsVec os vs = List.zipWith (fun o v => o - v) os vs) := by
  refine ⟨fun o v => ⟨rfl, rfl, ?_⟩, fun os vs => ⟨rfl, rfl, ?_⟩⟩
  · show -(-(o - v)) = o - v
    ring
  · show (List.zipWith (fun o v => -(o - v)) os vs).map (fun x => -x) = _
    rw [List.map_zipWith]
    simp only [neg_neg]

/-- C5: whenever some category bucket in `[0, numCategories)` has fewer than
`minimumLeafSize` samples, `SplitIfBetter` returns the sentinel `DBL_MAX`
(leaving `splitInfo` as it was), for every fitness function and every label
distribution — the fitness function is never consulted. -/
theorem C5_leaf_size_guard (fitness : List ℕ → ℕ → List ℚ → ℚ) (useWeights : Bool)
    (bestGain : ℚ) (data : List ℕ) (numCategories : ℕ) (labels : List ℕ)
    (numClasses : ℕ) (weights : List ℚ) (minimumLeafSize : ℕ)
    (minimumGainSplit : ℚ) (splitInfo : ℚ)
    (h : ∃ i < numCategories, catCount data i < minimumLeafSize) :
    splitIfBetter fitness useWeights bestGain data numCategories labels numClasses
      weights minimumLeafSize minimumGainSplit splitInfo = (DBL_MAX, splitInfo) := by
  have h' : ∃ i ∈ List.range numCategories, catCount data i < minimumLeafSize := by
    obtain ⟨i, hi, hc⟩ := h
    exact ⟨i, List.mem_range.mpr hi, hc⟩
  unfold splitIfBetter
  rw [if_pos h']

/-- C5 witness: a 2-category feature with bucket counts [5,1] and
`minimumLeafSize = 2` returns the sentinel. -/
theorem C5_leaf_size_guard_witness :
    splitIfBetter (fun _ _ _ => 0) false 0 [0, 0, 0, 0, 0, 1] 2 [0, 1, 0, 1, 0, 1] 2
      [] 2 0 7 = (DBL_MAX, 7) :=
  C5_leaf_size_guard (fun _ _ _ => 0) false 0 [0, 0, 0, 0, 0, 1] 2 [0, 1, 0, 1, 0, 1] 2
    [] 2 0 7 ⟨1, by norm_num, by decide⟩

/-- C6: with every bucket at or above the minimum leaf size, `SplitIfBetter`
accepts exactly when `overallGain > bestGain + minimumGainSplit + epsilon`
with `epsilon = 1e-7`; on acceptance it stores `numCategories` into
`splitInfo` and returns the gain, and on rejection — including a gain exactly
equal to the threshold — it returns the sentinel `DBL_MAX`. -/
theorem C6_acceptance_rule (fitness : List ℕ → ℕ → List ℚ → ℚ) (useWeights : Bool)
    (bestGain : ℚ) (data : List ℕ) (numCategories : ℕ) (labels : List ℕ)
    (numClasses : ℕ) (weights : List ℚ) (minimumLeafSize : ℕ)
    (minimumGainSplit : ℚ) (splitInfo : ℚ)
    (hfeas : ∀ i < numCategories, minimumLeafSize ≤ catCount data i) :
    epsilon = 1 / 10000000 ∧
    (bestGain + minimumGainSplit + epsilon
        < overallGain fitness useWeights data numCategories labels numClasses weights →
      splitIfBetter fitness useWeights bestGain data numCategories labels numClasses
          weights minimumLeafSize minimumGainSplit splitInfo
        = (overallGain fitness useWeights data numCategories labels numClasses weights,
            (numCategories : ℚ))) ∧
    (¬ bestGain + minimumGainSplit + epsilon
        < overallGain fitness useWeights data numCategories labels numClasses weights →
      splitIfBetter fitness useWeights bestGain data numCategories labels numClasses
          weights minimumLeafSize minimumGainSplit splitInfo = (DBL_MAX, splitInfo)) := by
  have hng : ¬ ∃ i ∈ List.range numCategories, catCount data i < minimumLeafSize := by
    rintro ⟨i, hi, hc⟩
    exact absurd (hfeas i (List.mem_range.mp hi)) (by omega)
  refine ⟨rfl, fun hgt => ?_, fun hle => ?_⟩
  · unfold splitIfBetter
    rw [if_neg hng, if_pos hgt]
  · unfold splitIfBetter
    rw [if_neg hng, if_neg hle]

/-- C6 witness: a feasible 2-category split whose gain 1 exceeds the threshold
`0 + 0 + 1e-7`, so it is accepted, the gain is returned and `splitInfo`
becomes the category count 2. -/
theorem C6_acceptance_rule_witness :
    splitIfBetter (fun _ _ _ => 1) false 0 [0, 1] 2 [0, 1] 2 [] 1 0 5
      = (overallGain (fun _ _ _ => 1) false [0, 1] 2 [0, 1] 2 [], 2) := by
  have hc0 : catCount [0, 1] 0 = 1 := by decide
  have hc1 : catCount [0, 1] 1 = 1 := by decide
  have hov : overallGain (fun _ _ _ => (1 : ℚ)) false [0, 1] 2 [0, 1] 2 [] = 1 := by
    unfold overallGain childPct
    simp only [List.range_succ, List.range_zero, List.nil_append, List.map_cons,
      List.map_nil, List.sum_cons, List.sum_nil, List.map_append, List.sum_append,
      Bool.false_eq_true, if_false, hc0, hc1]
    norm_num
  have h := (C6_acceptance_rule (fun _ _ _ => 1) false 0 [0, 1] 2 [0, 1] 2 [] 1 0 5
    (by decide)).2.1 (by rw [hov]; unfold epsilon; norm_num)
  exact h

/-- C10: `splitInfo` is modified only on acceptance — if the leaf-size guard
fires the call returns `(DBL_MAX, splitInfo)` unchanged, if the threshold test
fails `splitInfo` is unchanged, and conversely whenever `splitInfo` changed the
call accepted: it returned the computed gain, the gain exceeded the threshold
and every bucket met the minimum leaf size. -/
theorem C10_splitInfo_frame (fitness : List ℕ → ℕ → List ℚ → ℚ) (useWeights : Bool)
    (bestGain : ℚ) (data : List ℕ) (numCategories : ℕ) (labels : List ℕ)
    (numClasses : ℕ) (weights : List ℚ) (minimumLeafSize : ℕ)
    (minimumGainSplit : ℚ) (splitInfo : ℚ) :
    ((∃ i < numCategories, catCount data i < minimumLeafSize) →
      splitIfBetter fitness useWeights bestGain data numCategories labels numClasses
        weights minimumLeafSize minimumGainSplit splitInfo = (DBL_MAX, splitInfo)) ∧
    (¬ bestGain + minimumGainSplit + epsilon
        < overallGain fitness useWeights data numCategories labels numClasses weights →
      (splitIfBetter fitness useWeights bestGain data numCategories labels numClasses
        weights minimumLeafSize minimumGainSplit splitInfo).2 = splitInfo) ∧
    ((splitIfBetter fitness useWeights bestGain data numCategories labels numClasses
        weights minimumLeafSize minimumGainSplit splitInfo).2 ≠ splitInfo →
      splitIfBetter fitness useWeights bestGain data numCategories labels numClasses
          weights minimumLeafSize minimumGainSplit splitInfo
        = (overallGain fitness useWeights data numCategories labels numClasses weights,
            (numCategories : ℚ)) ∧
      bestGain + minimumGainSplit + epsilon
        < overallGain fitness useWeights data numCategories labels numClasses weights ∧
      ∀ i < numCategories, minimumLeafSize ≤ catCount data i) := by
  unfold splitIfBetter
  by_cases hg : ∃ i ∈ List.range numCategories, catCount data i < minimumLeafSize
  · rw [if_pos hg]
    exact ⟨fun _ => rfl, fun _ => rfl, fun hne => absurd rfl hne⟩
  · rw [if_neg hg]
    have hfeas : ∀ i < numCategories, minimumLeafSize ≤ catCount data i := by
      intro i hi
      by_contra hcon
      exact hg ⟨i, List.mem_range.mpr hi, by omega⟩
    by_cases ht : bestGain + minimumGainSplit + epsilon
        < overallGain fitness useWeights data numCategories labels numClasses weights
    · rw [if_pos ht]
      refine ⟨fun hex => ?_, fun hle => absurd ht hle, fun _ => ⟨rfl, ht, hfeas⟩⟩
      obtain ⟨i, hi, hc⟩ := hex
      exact absurd (hfeas i hi) (by omega)
    · rw [if_neg ht]
      refine ⟨fun _ => rfl, fun _ => rfl, fun hne => absurd rfl hne⟩

/-- C10 witness: with bucket counts [2,1] below a minimum leaf size of 5 the
sentinel path leaves `splitInfo` at its prior value 3. -/
theorem C10_splitInfo_frame_witness :
    (splitIfBetter (fun _ _ _ => 0) false 0 [0, 0, 1] 2 [1, 1, 0] 2 [] 5 0 3).2 = 3 := by
  have h := (C10_splitInfo_frame (fun _ _ _ => 0) false 0 [0, 0, 1] 2 [1, 1, 0] 2
    [] 5 0 3).1 ⟨0, by norm_num, by decide⟩
  rw [h]

/-- C7 counterexample: with a 2-column dataset and a 3-entry label vector
(mismatched lengths), non-shuffled `SplitHelper` does not fail with a
`DimensionMismatch` error: it completes normally and returns populated outputs
(the test labels absorbing every remaining label entry). -/
theorem C7_counterexample_no_dimension_check :
    ([5, 6, 7] : List ℕ).length ≠ ([10, 20] : List ℚ).length ∧
    splitHelperWithLabels ([10, 20] : List ℚ) ([5, 6, 7] : List ℕ) [] (1/2) false
      = Except.ok ([10], [20], [5], [6, 7]) := by
  constructor
  · decide
  · have hts : trainSizeOf 2 (1/2) = 1 := by
      unfold trainSizeOf testSizeOf
      norm_num
    have h : splitHelperWithLabels ([10, 20] : List ℚ) ([5, 6, 7] : List ℕ) [] (1/2) false
        = Except.ok (([10, 20] : List ℚ).take (trainSizeOf 2 (1/2)),
            ([10, 20] : List ℚ).drop (trainSizeOf 2 (1/2)),
            ([5, 6, 7] : List ℕ).take (trainSizeOf 2 (1/2)),
            if trainSizeOf 2 (1/2) < 2 then ([5, 6, 7] : List ℕ).drop (trainSizeOf 2 (1/2))
              else []) :=
      splitHelperWithLabels_noShuffle_ok [10, 20] [5, 6, 7] [] (1/2) (by norm_num)
    rw [h, hts]
    rfl

/-- C7 (amended): the partitioning code performs no dimension validation — the
labeled `SplitHelper` never produces a `DimensionMismatch` failure for any
input in either shuffle mode, and in non-shuffled mode a label vector at least
as long as the dataset is silently accepted: the call completes normally with
`trainSize` labels in the train output and all remaining label entries in the
test output, even when the lengths differ. -/
theorem C7_amended_no_validation {α β : Type} :
    (∀ (input : List α) (labels : List β) (order : List ℕ) (r : ℚ) (sh : Bool),
      splitHelperWithLabels input labels order r sh
        ≠ Except.error SplitError.dimensionMismatch) ∧
    (∀ (input : List α) (labels : List β) (order : List ℕ) (r : ℚ),
      input.length ≤ labels.length →
      splitHelperWithLabels input labels order r false
        = Except.ok (input.take (trainSizeOf input.length r),
            input.drop (trainSizeOf input.length r),
            labels.take (trainSizeOf input.length r),
            if trainSizeOf input.length r < input.length
              then labels.drop (trainSizeOf input.length r) else [])) :=
  ⟨fun input labels order r sh => splitHelperWithLabels_ne_dm input labels order r sh,
   fun input labels order r hlab =>
     splitHelperWithLabels_noShuffle_ok input labels order r hlab⟩

/-- C7 witness: the amended behaviour at a concrete mismatched input — a
2-column dataset with 3 labels completes without error. -/
theorem C7_amended_no_validation_witness :
    splitHelperWithLabels ([1, 2] : List ℚ) ([8, 9, 10] : List ℕ) [] (1/2) false
      = Except.ok ([1], [2], [8], [9, 10]) := by
  have hts : trainSizeOf 2 (1/2) = 1 := by
    unfold trainSizeOf testSizeOf
    norm_num
  have h := (C7_amended_no_validation (α := ℚ) (β := ℕ)).2 [1, 2] [8, 9, 10] [] (1/2)
    (by norm_num)
  have h2 : splitHelperWithLabels ([1, 2] : List ℚ) ([8, 9, 10] : List ℕ) [] (1/2) false
      = Except.ok (([1, 2] : List ℚ).take (trainSizeOf 2 (1/2)),
          ([1, 2] : List ℚ).drop (trainSizeOf 2 (1/2)),
          ([8, 9, 10] : List ℕ).take (trainSizeOf 2 (1/2)),
          if trainSizeOf 2 (1/2) < 2 then ([8, 9, 10] : List ℕ).drop (trainSizeOf 2 (1/2))
            else []) := h
  rw [h2, hts]
  rfl

/-- C8 (code bug): the scalar SSE Hessian is exactly 1, but the vector
overload executes `VecType h(values.n_elem, 1)`, which is the armadillo
`(n_rows, n_cols)` size constructor: for a column vector the result holds
whatever uninitialised memory contains (not necessarily 1), and for a row
vector of length 2 the constructor raises the armadillo layout error, so the
claim that the Hessian is exactly 1 elementwise for vectors fails. -/
theorem C8_hessian_vector_bug :
    SSELoss.Hessians 2 3 = 1 ∧
    (∃ mem, SSELoss.HessiansCol mem [2, 3] [2, 3] ≠ [1, 1]) ∧
    (∀ mem, SSELoss.HessiansRow mem [2, 3] [2, 3]
      = Except.error
        "Mat::init(): requested size is not compatible with row vector layout") := by
  refine ⟨rfl, ⟨fun _ => 0, ?_⟩, fun mem => rfl⟩
  intro hcontra
  have h2 : SSELoss.HessiansCol (fun _ => (0 : ℚ)) [2, 3] [2, 3] = [0, 0] := rfl
  rw [h2] at hcontra
  have h3 : (0 : ℚ) = 1 := by injection hcontra
  norm_num at h3

end Mlpack
